import Mathlib

/-!
Shallow embedding of the core of `spiceai/odbc-api`:

* `src/odbc-api/src/conversion.rs` — `decimal_text_to_i128`, the decimal-text
  to scaled-integer conversion.  Byte strings are modelled as `List Nat`
  (byte values), `i128` as `Int` (the spec treats the result as an
  arbitrary-precision-capable signed integer; none of the verified claims
  involves 128-bit overflow).  The out-of-bounds index `text[0]` on an empty
  input is modelled by an `Option` result, `none` standing for the panic.

* `src/odbc-api/src/handles/error.rs` — the `Error` enum and
  `IntoResult::into_result` for `SqlReturn`.  The diagnostic lookup
  (`DiagnosticRecord::fill_from`) and the logger (`log_diagnostics`) live in
  modules outside the provided sources; they are modelled from the spec as an
  abstract lookup capability carried by the handle, and an effect trace
  counting lookup and log-emission attempts.
-/

/-! ### The `atoi` crate parsing primitives used by `conversion.rs` -/

/-- `atoi`'s `ascii_to_digit`'s domain: ASCII bytes `'0'`(48) … `'9'`(57). -/
def isDigitByte (b : Nat) : Bool := 48 ≤ b && b ≤ 57

/-- Numeric value of an ASCII digit byte. -/
def digitVal (b : Nat) : Int := (b : Int) - 48

/-- Accumulating loop of `atoi`'s `from_radix_10` / positive branch of
`from_radix_10_signed`: consume digits left to right, `acc := acc * 10 + d`;
`idx` counts consumed bytes.  Returns the accumulated value and the index of
the first byte that is not part of the number. -/
def fromRadix10Aux : List Nat → Int → Nat → Int × Nat
  | [], acc, idx => (acc, idx)
  | b :: rest, acc, idx =>
    if isDigitByte b then fromRadix10Aux rest (acc * 10 + digitVal b) (idx + 1)
    else (acc, idx)

/-- Negative branch of `atoi`'s `from_radix_10_signed`: `acc := acc * 10 - d`. -/
def fromRadix10NegAux : List Nat → Int → Nat → Int × Nat
  | [], acc, idx => (acc, idx)
  | b :: rest, acc, idx =>
    if isDigitByte b then fromRadix10NegAux rest (acc * 10 - digitVal b) (idx + 1)
    else (acc, idx)

/-- `i128::from_radix_10` (crate `atoi`): maximal unsigned decimal prefix and
the number of bytes consumed. -/
def from_radix_10 (text : List Nat) : Int × Nat := fromRadix10Aux text 0 0

/-- `i128::from_radix_10_signed` (crate `atoi`): an optional leading `'+'`(43)
or `'-'`(45) byte is consumed and counted, then a maximal run of digits. -/
def from_radix_10_signed (text : List Nat) : Int × Nat :=
  match text with
  | [] => (0, 0)
  | b :: rest =>
    if b = 43 then fromRadix10Aux rest 0 1
    else if b = 45 then fromRadix10NegAux rest 0 1
    else fromRadix10Aux (b :: rest) 0 0

/-! ### `conversion.rs` : `decimal_text_to_i128` -/

/-- `for _ in 0..k { x *= 10 }`. -/
def mulPow10 (x : Int) : Nat → Int
  | 0 => x
  | k + 1 => mulPow10 (x * 10) k

/-- `for _ in 0..k { x /= 10 }` with Rust's `i128` division, which truncates
toward zero (`Int.tdiv`). -/
def divPow10 (x : Int) : Nat → Int
  | 0 => x
  | k + 1 => divPow10 (x.tdiv 10) k

/-- Bytes consumed by the signed integer-part parse
(`num_digits_lhs` in the source). -/
def intPartLen (text : List Nat) : Nat := (from_radix_10_signed text).2

/-- The `(rhs, num_digits_rhs)` pair of the source: `(0, 0)` when the integer
part consumed the whole text, otherwise the unsigned parse of the bytes after
skipping one radix byte. -/
def fracPart (text : List Nat) : Int × Nat :=
  if intPartLen text = text.length then ((0 : Int), 0)
  else from_radix_10 (text.drop (intPartLen text + 1))

/-- `num_digits_rhs` of the source. -/
def fracDigits (text : List Nat) : Nat := (fracPart text).2

/-- The combined value `n` of the source before scale adjustment:
`lhs` left-shifted by `num_digits_rhs`, then `lhs - rhs` when
`lhs < 0 || (lhs == 0 && text[0] == b'-')` and `lhs + rhs` otherwise.
`text[0]` is only evaluated when `lhs == 0` (Rust `||`/`&&` short-circuit);
on empty input that access panics, modelled by `none`. -/
def combinedValue (text : List Nat) : Option Int :=
  let lhs := mulPow10 (from_radix_10_signed text).1 (fracPart text).2
  let rhs := (fracPart text).1
  if lhs < 0 then some (lhs - rhs)
  else if lhs = 0 then
    match text with
    | [] => none
    | b :: _ => some (if b = 45 then lhs - rhs else lhs + rhs)
  else some (lhs + rhs)

/-- `decimal_text_to_i128` from `conversion.rs` (the spec's `scale_decimal`):
parse integer and fractional parts, combine them sign-correctly, then adjust
to `scale` by left-shifting (`lhs *= 10` loop) when the fraction is short and
right-shifting (`n /= 10` loop, truncating division) when it is long. -/
def decimal_text_to_i128 (text : List Nat) (scale : Nat) : Option Int :=
  match combinedValue text with
  | none => none
  | some n =>
    let nrhs := fracDigits text
    some (if nrhs < scale then mulPow10 n (scale - nrhs)
          else divPow10 n (nrhs - scale))

/-! ### `handles/error.rs` : `Error` and `IntoResult for SqlReturn` -/

/-- Modelled from the spec: a diagnostic record is "a value object describing
a single diagnostic message the native layer attached to a handle (message
text, native error code, state code)"; its definition (`handles/diagnostics.rs`)
is not among the provided sources. -/
structure DiagnosticRecord where
  stateCode : String
  nativeError : Int
  messageText : String
deriving DecidableEq

/-- Modelled from the spec: `std::io::Error` is opaque to this core
("supplying input data … failed at the I/O boundary"); only its presence in
the `FailedReadingInput` variant matters. -/
structure IoError where
  message : String
deriving DecidableEq

/-- The `Error` enum of `handles/error.rs`. -/
inductive Error where
  | NoDiagnostics : Error
  | Diagnostics : DiagnosticRecord → Error
  | AbortedConnectionStringCompletion : Error
  | OdbcApiVersionUnsupported : DiagnosticRecord → Error
  | FailedReadingInput : IoError → Error
deriving DecidableEq

/-- `odbc_sys::SqlReturn`: a transparent wrapper around an `i16` code. -/
structure SqlReturn where
  code : Int
deriving DecidableEq

def SqlReturn.SUCCESS : SqlReturn := ⟨0⟩

def SqlReturn.SUCCESS_WITH_INFO : SqlReturn := ⟨1⟩

def SqlReturn.ERROR : SqlReturn := ⟨-1⟩

/-- Modelled from the spec: a handle is "a reference to a diagnosable object";
the external collaborator `lookup_diagnostic(handle, index)` either populates
a record or reports absence (`DiagnosticRecord::fill_from` is not among the
provided sources).  The 1-based record index is the argument. -/
structure Handle where
  lookupDiagnostic : Nat → Option DiagnosticRecord

/-- Side effects performed by one `into_result` call: how many diagnostic
lookups and how many log-emission attempts (`log_diagnostics`) happened. -/
structure Trace where
  lookups : Nat
  logEmissions : Nat
deriving DecidableEq

/-- `IntoResult::into_result for SqlReturn` (the spec's `classify`), with its
side effects made explicit as a `Trace`.  `SUCCESS` returns `Ok(())`;
`SUCCESS_WITH_INFO` logs once and returns `Ok(())`; `ERROR` performs one
diagnostic lookup at record index 1, then either logs once and returns
`Err(Diagnostics(rec))` or returns `Err(NoDiagnostics)` without logging.
Any other code panics (`none`). -/
def into_result (self : SqlReturn) (handle : Handle) :
    Option (Except Error Unit × Trace) :=
  if self = SqlReturn.SUCCESS then some (Except.ok (), ⟨0, 0⟩)
  else if self = SqlReturn.SUCCESS_WITH_INFO then some (Except.ok (), ⟨0, 1⟩)
  else if self = SqlReturn.ERROR then
    match handle.lookupDiagnostic 1 with
    | some r => some (Except.error (Error.Diagnostics r), ⟨1, 1⟩)
    | none => some (Except.error Error.NoDiagnostics, ⟨1, 0⟩)
  else none

/-! ### Support lemmas -/

theorem mulPow10_eq (x : Int) (k : Nat) : mulPow10 x k = x * 10 ^ k := by
  induction k generalizing x with
  | zero => simp [mulPow10]
  | succ k ih =>
    rw [mulPow10, ih]
    ring

theorem divPow10_zero_val (k : Nat) : divPow10 0 k = 0 := by
  induction k with
  | zero => rfl
  | succ k ih => simpa [divPow10] using ih

theorem divPow10_ofNat (m k : Nat) :
    divPow10 (Int.ofNat m) k = Int.ofNat (m / 10 ^ k) := by
  induction k generalizing m with
  | zero => simp [divPow10]
  | succ k ih =>
    rw [divPow10]
    have ht : (Int.ofNat m).tdiv 10 = Int.ofNat (m / 10) := rfl
    rw [ht, ih, Nat.div_div_eq_div_mul]
    congr 1
    rw [pow_succ, Nat.mul_comm]

theorem divPow10_negSucc (m k : Nat) :
    divPow10 (Int.negSucc m) k = -Int.ofNat ((m + 1) / 10 ^ k) := by
  induction k generalizing m with
  | zero =>
    rw [divPow10, pow_zero, Nat.div_one]
    rfl
  | succ k ih =>
    rw [divPow10]
    have ht : (Int.negSucc m).tdiv 10 = -Int.ofNat ((m + 1) / 10) := rfl
    have hsplit : (m + 1) / 10 ^ (k + 1) = ((m + 1) / 10) / 10 ^ k := by
      rw [Nat.div_div_eq_div_mul, pow_succ, Nat.mul_comm]
    rcases hq : (m + 1) / 10 with _ | j
    · rw [ht, hq, hsplit, hq]
      simp [divPow10_zero_val]
    · rw [ht, hq]
      have hns : -Int.ofNat (j + 1) = Int.negSucc j := rfl
      rw [hns, ih, hsplit, hq]

theorem divPow10_trunc (n : Int) (k : Nat) :
    divPow10 n k = n.sign * ((n.natAbs / 10 ^ k : Nat) : Int) := by
  cases n with
  | ofNat m =>
    cases m with
    | zero =>
      have h0 : Int.ofNat 0 = 0 := rfl
      rw [h0, divPow10_zero_val]
      simp
    | succ m' =>
      rw [divPow10_ofNat]
      have h1 : Int.sign (Int.ofNat (m' + 1)) = 1 := rfl
      have h2 : (Int.ofNat (m' + 1)).natAbs = m' + 1 := rfl
      rw [h1, h2, one_mul]
      rfl
  | negSucc m =>
    rw [divPow10_negSucc]
    have h1 : Int.sign (Int.negSucc m) = -1 := rfl
    have h2 : (Int.negSucc m).natAbs = m + 1 := rfl
    rw [h1, h2]
    have h3 : Int.ofNat ((m + 1) / 10 ^ k) = (((m + 1) / 10 ^ k : Nat) : Int) := rfl
    rw [h3]
    ring

theorem divPow10_nonpos {n : Int} (h : n ≤ 0) (k : Nat) : divPow10 n k ≤ 0 := by
  cases n with
  | ofNat m =>
    have hm : m = 0 := by
      rw [show Int.ofNat m = (m : Int) from rfl] at h
      omega
    subst hm
    rw [show Int.ofNat 0 = 0 from rfl, divPow10_zero_val]
  | negSucc m =>
    rw [divPow10_negSucc]
    exact neg_nonpos_of_nonneg (Int.ofNat_nonneg _)

theorem fromRadix10Aux_nonneg (t : List Nat) (acc : Int) (idx : Nat)
    (h : 0 ≤ acc) : 0 ≤ (fromRadix10Aux t acc idx).1 := by
  induction t generalizing acc idx with
  | nil => simpa [fromRadix10Aux] using h
  | cons b rest ih =>
    rw [fromRadix10Aux]
    by_cases hb : isDigitByte b
    · simp only [hb, if_true]
      apply ih
      have hb48 : 48 ≤ b := by
        simpa [isDigitByte] using (by simpa [isDigitByte] using hb : 48 ≤ b ∧ b ≤ 57).1
      have : (0 : Int) ≤ digitVal b := by
        simp only [digitVal]
        omega
      nlinarith
    · simpa [hb] using h

theorem from_radix_10_nonneg (t : List Nat) : 0 ≤ (from_radix_10 t).1 :=
  fromRadix10Aux_nonneg t 0 0 le_rfl

theorem fracPart_nonneg (text : List Nat) : 0 ≤ (fracPart text).1 := by
  rw [fracPart]
  split
  · simp
  · exact from_radix_10_nonneg _

theorem fromRadix10Aux_append_of_lt (t s : List Nat) (acc : Int) (idx : Nat)
    (h : (fromRadix10Aux t acc idx).2 < idx + t.length) :
    fromRadix10Aux (t ++ s) acc idx = fromRadix10Aux t acc idx := by
  induction t generalizing acc idx with
  | nil =>
    exfalso
    simp [fromRadix10Aux] at h
  | cons b rest ih =>
    by_cases hb : isDigitByte b
    · rw [List.cons_append, fromRadix10Aux, if_pos hb, ih]
      · rw [fromRadix10Aux, if_pos hb]
      · rw [fromRadix10Aux, if_pos hb] at h
        simpa [Nat.add_assoc, Nat.add_comm, Nat.add_left_comm] using h
    · rw [List.cons_append, fromRadix10Aux, if_neg hb, fromRadix10Aux, if_neg hb]

theorem fromRadix10NegAux_append_of_lt (t s : List Nat) (acc : Int) (idx : Nat)
    (h : (fromRadix10NegAux t acc idx).2 < idx + t.length) :
    fromRadix10NegAux (t ++ s) acc idx = fromRadix10NegAux t acc idx := by
  induction t generalizing acc idx with
  | nil =>
    exfalso
    simp [fromRadix10NegAux] at h
  | cons b rest ih =>
    by_cases hb : isDigitByte b
    · rw [List.cons_append, fromRadix10NegAux, if_pos hb, ih]
      · rw [fromRadix10NegAux, if_pos hb]
      · rw [fromRadix10NegAux, if_pos hb] at h
        simpa [Nat.add_assoc, Nat.add_comm, Nat.add_left_comm] using h
    · rw [List.cons_append, fromRadix10NegAux, if_neg hb, fromRadix10NegAux, if_neg hb]

theorem from_radix_10_signed_append_of_lt (t s : List Nat)
    (h : (from_radix_10_signed t).2 < t.length) :
    from_radix_10_signed (t ++ s) = from_radix_10_signed t := by
  cases t with
  | nil =>
    exfalso
    simp [from_radix_10_signed] at h
  | cons b rest =>
    by_cases hp : b = 43
    · subst hp
      rw [from_radix_10_signed, if_pos rfl] at h ⊢
      rw [List.cons_append, from_radix_10_signed, if_pos rfl]
      exact fromRadix10Aux_append_of_lt rest s 0 1
        (by simpa [Nat.add_comm] using h)
    · by_cases hm : b = 45
      · subst hm
        rw [from_radix_10_signed, if_neg (by decide), if_pos rfl] at h ⊢
        rw [List.cons_append, from_radix_10_signed, if_neg (by decide), if_pos rfl]
        exact fromRadix10NegAux_append_of_lt rest s 0 1
          (by simpa [Nat.add_comm] using h)
      · rw [from_radix_10_signed, if_neg hp, if_neg hm] at h ⊢
        rw [List.cons_append, from_radix_10_signed, if_neg hp, if_neg hm,
          ← List.cons_append]
        exact fromRadix10Aux_append_of_lt (b :: rest) s 0 0
          (by simpa using h)

theorem fromRadix10Aux_append_digit (t : List Nat) (d : Nat) (acc : Int)
    (idx : Nat) (h : (fromRadix10Aux t acc idx).2 = idx + t.length)
    (hd : isDigitByte d = true) :
    fromRadix10Aux (t ++ [d]) acc idx
      = ((fromRadix10Aux t acc idx).1 * 10 + digitVal d, idx + t.length + 1) := by
  induction t generalizing acc idx with
  | nil =>
    simp [fromRadix10Aux, hd]
  | cons b rest ih =>
    by_cases hb : isDigitByte b
    · rw [fromRadix10Aux, if_pos hb] at h ⊢
      rw [List.cons_append, fromRadix10Aux, if_pos hb, ih _ _
        (by simpa [Nat.add_assoc, Nat.add_comm, Nat.add_left_comm] using h)]
      rw [Prod.mk.injEq]
      refine ⟨rfl, ?_⟩
      simp only [List.length_cons]
      omega
    · exfalso
      rw [fromRadix10Aux, if_neg hb] at h
      simp at h

theorem fromRadix10Aux_append_nondigit (t s : List Nat) (r : Nat) (acc : Int)
    (idx : Nat) (h : (fromRadix10Aux t acc idx).2 = idx + t.length)
    (hr : isDigitByte r = false) :
    fromRadix10Aux (t ++ r :: s) acc idx = fromRadix10Aux t acc idx := by
  induction t generalizing acc idx with
  | nil =>
    simp [fromRadix10Aux, hr]
  | cons b rest ih =>
    by_cases hb : isDigitByte b
    · rw [fromRadix10Aux, if_pos hb] at h ⊢
      rw [List.cons_append, fromRadix10Aux, if_pos hb, ih _ _
        (by simpa [Nat.add_assoc, Nat.add_comm, Nat.add_left_comm] using h)]
    · exfalso
      rw [fromRadix10Aux, if_neg hb] at h
      simp at h

theorem fromRadix10NegAux_append_nondigit (t s : List Nat) (r : Nat) (acc : Int)
    (idx : Nat) (h : (fromRadix10NegAux t acc idx).2 = idx + t.length)
    (hr : isDigitByte r = false) :
    fromRadix10NegAux (t ++ r :: s) acc idx = fromRadix10NegAux t acc idx := by
  induction t generalizing acc idx with
  | nil =>
    simp [fromRadix10NegAux, hr]
  | cons b rest ih =>
    by_cases hb : isDigitByte b
    · rw [fromRadix10NegAux, if_pos hb] at h ⊢
      rw [List.cons_append, fromRadix10NegAux, if_pos hb, ih _ _
        (by simpa [Nat.add_assoc, Nat.add_comm, Nat.add_left_comm] using h)]
    · exfalso
      rw [fromRadix10NegAux, if_neg hb] at h
      simp at h

theorem from_radix_10_signed_append_nondigit (a : List Nat) (v : Int)
    (r : Nat) (b : List Nat) (hav : from_radix_10_signed a = (v, a.length))
    (hr : isDigitByte r = false) (ha : a = [] → r ≠ 43 ∧ r ≠ 45) :
    from_radix_10_signed (a ++ r :: b) = (v, a.length) := by
  cases a with
  | nil =>
    obtain ⟨h43, h45⟩ := ha rfl
    have hv : v = 0 := by
      have : ((0 : Int), (0 : Nat)) = (v, 0) := by
        simpa [from_radix_10_signed] using hav
      exact (Prod.mk.injEq _ _ _ _ ▸ this).1.symm
    subst hv
    rw [List.nil_append, from_radix_10_signed, if_neg h43, if_neg h45,
      fromRadix10Aux, if_neg (by simpa using hr)]
    rfl
  | cons c a' =>
    by_cases hp : c = 43
    · subst hp
      rw [from_radix_10_signed, if_pos rfl] at hav
      rw [List.cons_append, from_radix_10_signed, if_pos rfl,
        fromRadix10Aux_append_nondigit a' b r 0 1
          (by rw [hav]; simp only [List.length_cons]; omega) hr, hav]
    · by_cases hm : c = 45
      · subst hm
        rw [from_radix_10_signed, if_neg (by decide), if_pos rfl] at hav
        rw [List.cons_append, from_radix_10_signed, if_neg (by decide), if_pos rfl,
          fromRadix10NegAux_append_nondigit a' b r 0 1
            (by rw [hav]; simp only [List.length_cons]; omega) hr, hav]
      · rw [from_radix_10_signed, if_neg hp, if_neg hm] at hav
        rw [List.cons_append, from_radix_10_signed, if_neg hp, if_neg hm,
          ← List.cons_append,
          fromRadix10Aux_append_nondigit (c :: a') b r 0 0
            (by rw [hav]; simp) hr, hav]

/-! ### Helper facts about `combinedValue` and `decimal_text_to_i128` -/

theorem combinedValue_cons (b : Nat) (rest : List Nat) :
    ∃ n : Int, combinedValue (b :: rest) = some n := by
  simp only [combinedValue]
  split
  · exact ⟨_, rfl⟩
  · split
    · exact ⟨_, rfl⟩
    · exact ⟨_, rfl⟩

theorem decimal_text_to_i128_eq (text : List Nat) (scale : Nat) (n : Int)
    (h : combinedValue text = some n) :
    decimal_text_to_i128 text scale
      = some (if fracDigits text < scale then mulPow10 n (scale - fracDigits text)
              else divPow10 n (fracDigits text - scale)) := by
  rw [decimal_text_to_i128, h]

/-! ### The claims -/

/-- **C6.** For every handle, classifying `SQL_ERROR` when the diagnostic
lookup at record index 1 succeeds returns `Err(Error::Diagnostics(record))`
with exactly the record the lookup populated, after exactly one diagnostic
lookup and exactly one log-emission attempt. -/
theorem c6_error_with_diagnostics (handle : Handle) (r : DiagnosticRecord)
    (h : handle.lookupDiagnostic 1 = some r) :
    into_result SqlReturn.ERROR handle
      = some (Except.error (Error.Diagnostics r), ⟨1, 1⟩) := by
  rw [into_result, if_neg (by decide), if_neg (by decide), if_pos rfl, h]

def testRecord : DiagnosticRecord := ⟨"HY000", 14, "boom"⟩

def testHandle : Handle := ⟨fun i => if i = 1 then some testRecord else none⟩

def noDiagHandle : Handle := ⟨fun _ => none⟩

/-- Witness for C6 at a concrete handle whose lookup at index 1 succeeds. -/
theorem c6_error_with_diagnostics_witness :
    testHandle.lookupDiagnostic 1 = some testRecord ∧
    into_result SqlReturn.ERROR testHandle
      = some (Except.error (Error.Diagnostics testRecord), ⟨1, 1⟩) :=
  ⟨rfl, c6_error_with_diagnostics testHandle testRecord rfl⟩

/-- **C7.** For every handle, classifying `SQL_ERROR` when the diagnostic
lookup at record index 1 reports absence returns `Err(Error::NoDiagnostics)`
after one lookup and zero log-emission attempts; moreover `into_result` only
ever produces `Error::Diagnostics r` when the lookup at index 1 populated
exactly `r`, and only ever produces `Error::NoDiagnostics` when that lookup
reported absence. -/
theorem c7_error_without_diagnostics :
    (∀ handle : Handle, handle.lookupDiagnostic 1 = none →
      into_result SqlReturn.ERROR handle
        = some (Except.error Error.NoDiagnostics, ⟨1, 0⟩)) ∧
    (∀ (ret : SqlReturn) (handle : Handle) (res : Except Error Unit) (tr : Trace),
      into_result ret handle = some (res, tr) →
      (∀ r : DiagnosticRecord, res = Except.error (Error.Diagnostics r) →
        handle.lookupDiagnostic 1 = some r) ∧
      (res = Except.error Error.NoDiagnostics →
        handle.lookupDiagnostic 1 = none)) := by
  constructor
  · intro handle h
    rw [into_result, if_neg (by decide), if_neg (by decide), if_pos rfl, h]
  · intro ret handle res tr h
    rw [into_result] at h
    split at h
    · simp only [Option.some.injEq, Prod.mk.injEq] at h
      obtain ⟨h1, -⟩ := h
      subst h1
      refine ⟨fun r hr => ?_, fun hr => ?_⟩ <;> cases hr
    · split at h
      · simp only [Option.some.injEq, Prod.mk.injEq] at h
        obtain ⟨h1, -⟩ := h
        subst h1
        refine ⟨fun r hr => ?_, fun hr => ?_⟩ <;> cases hr
      · split at h
        · cases hl : handle.lookupDiagnostic 1 with
          | some r0 =>
            rw [hl] at h
            simp only [Option.some.injEq, Prod.mk.injEq] at h
            obtain ⟨h1, -⟩ := h
            subst h1
            refine ⟨fun r hr => ?_, fun hr => ?_⟩
            · cases hr
              rfl
            · cases hr
          | none =>
            rw [hl] at h
            simp only [Option.some.injEq, Prod.mk.injEq] at h
            obtain ⟨h1, -⟩ := h
            subst h1
            refine ⟨fun r hr => ?_, fun _ => rfl⟩
            cases hr
        · cases h

/-- Witness for C7 at a concrete handle whose lookup at index 1 is absent. -/
theorem c7_error_without_diagnostics_witness :
    into_result SqlReturn.ERROR noDiagHandle
      = some (Except.error Error.NoDiagnostics, ⟨1, 0⟩) ∧
    noDiagHandle.lookupDiagnostic 1 = none :=
  ⟨c7_error_without_diagnostics.1 noDiagHandle rfl,
   (c7_error_without_diagnostics.2 SqlReturn.ERROR noDiagHandle
      (Except.error Error.NoDiagnostics) ⟨1, 0⟩
      (c7_error_without_diagnostics.1 noDiagHandle rfl)).2 rfl⟩

/-- **C8.** For every handle, classifying `SQL_SUCCESS` returns success with
zero diagnostic lookups and zero log-emission attempts: no collaborator is
invoked on this path. -/
theorem c8_success_no_effects (handle : Handle) :
    into_result SqlReturn.SUCCESS handle = some (Except.ok (), ⟨0, 0⟩) := rfl

/-- **C9.** For every handle, classifying `SQL_SUCCESS_WITH_INFO` returns
success with exactly one log-emission attempt and zero diagnostic lookups. -/
theorem c9_success_with_info_logs_once (handle : Handle) :
    into_result SqlReturn.SUCCESS_WITH_INFO handle
      = some (Except.ok (), ⟨0, 1⟩) := rfl

/-- **C10.** On the empty byte sequence the signed integer-part parse yields
zero, and `decimal_text_to_i128` panics on the unconditional `text[0]` access
in the sign-combination step (modelled as `none`); on every non-empty input
the access is in bounds and a value is returned. -/
theorem c10_empty_input_panics :
    from_radix_10_signed [] = (0, 0) ∧
    (∀ scale : Nat, decimal_text_to_i128 [] scale = none) ∧
    (∀ (b : Nat) (rest : List Nat) (scale : Nat),
      ∃ r : Int, decimal_text_to_i128 (b :: rest) scale = some r) := by
  refine ⟨rfl, fun scale => rfl, fun b rest scale => ?_⟩
  obtain ⟨n, hn⟩ := combinedValue_cons b rest
  exact ⟨_, decimal_text_to_i128_eq (b :: rest) scale n hn⟩

/-- **C1.** Whenever the parsed integer part is negative, or is zero while the
text begins with `'-'`(45), the combination step subtracts the (nonnegative)
fractional magnitude from the shifted integer part, so the overall result
keeps a nonpositive sign at every scale; in particular
`scale_decimal(b"-0.1", 5) = -10000`. -/
theorem c1_sign_preserving_subtraction :
    (∀ text : List Nat,
      ((from_radix_10_signed text).1 < 0 ∨
        ((from_radix_10_signed text).1 = 0 ∧ text.head? = some 45)) →
      0 ≤ (fracPart text).1 ∧
      combinedValue text
        = some (mulPow10 (from_radix_10_signed text).1 (fracPart text).2
            - (fracPart text).1) ∧
      (∀ scale : Nat, ∃ r : Int,
        decimal_text_to_i128 text scale = some r ∧ r ≤ 0)) ∧
    decimal_text_to_i128 [45, 48, 46, 49] 5 = some (-10000) := by
  constructor
  · intro text h
    have hrs : 0 ≤ (fracPart text).1 := fracPart_nonneg text
    have hlhs_le :
        mulPow10 (from_radix_10_signed text).1 (fracPart text).2 ≤ 0 := by
      rw [mulPow10_eq]
      rcases h with h | ⟨hz, _⟩
      · have hp : (0 : Int) < 10 ^ (fracPart text).2 := by positivity
        exact le_of_lt (mul_neg_of_neg_of_pos h hp)
      · rw [hz, zero_mul]
    have hcv : combinedValue text
        = some (mulPow10 (from_radix_10_signed text).1 (fracPart text).2
            - (fracPart text).1) := by
      rcases h with h | ⟨hz, hh⟩
      · have hlt :
            mulPow10 (from_radix_10_signed text).1 (fracPart text).2 < 0 := by
          rw [mulPow10_eq]
          have hp : (0 : Int) < 10 ^ (fracPart text).2 := by positivity
          exact mul_neg_of_neg_of_pos h hp
        simp only [combinedValue]
        rw [if_pos hlt]
      · have hz0 :
            mulPow10 (from_radix_10_signed text).1 (fracPart text).2 = 0 := by
          rw [mulPow10_eq, hz, zero_mul]
        cases text with
        | nil => cases hh
        | cons b rest =>
          have hb : b = 45 := by simpa using hh
          subst hb
          simp only [combinedValue]
          rw [if_neg (by rw [hz0]; exact lt_irrefl 0), if_pos hz0]
          simp
    refine ⟨hrs, hcv, fun scale => ?_⟩
    refine ⟨_, decimal_text_to_i128_eq text scale _ hcv, ?_⟩
    have hn : mulPow10 (from_radix_10_signed text).1 (fracPart text).2
        - (fracPart text).1 ≤ 0 := by omega
    split
    · rw [mulPow10_eq]
      exact mul_nonpos_iff.mpr (Or.inr ⟨hn, by positivity⟩)
    · exact divPow10_nonpos hn _
  · rfl

/-- Witness for C1 at `b"-0.1"`, whose integer part parses to zero while the
text begins with `'-'`. -/
theorem c1_sign_preserving_subtraction_witness :
    ((from_radix_10_signed [45, 48, 46, 49]).1 < 0 ∨
      ((from_radix_10_signed [45, 48, 46, 49]).1 = 0 ∧
        ([45, 48, 46, 49] : List Nat).head? = some 45)) ∧
    combinedValue [45, 48, 46, 49]
      = some (mulPow10 (from_radix_10_signed [45, 48, 46, 49]).1
          (fracPart [45, 48, 46, 49]).2 - (fracPart [45, 48, 46, 49]).1) ∧
    (∃ r : Int, decimal_text_to_i128 [45, 48, 46, 49] 5 = some r ∧ r ≤ 0) :=
  have hh : (from_radix_10_signed [45, 48, 46, 49]).1 = 0 ∧
      ([45, 48, 46, 49] : List Nat).head? = some 45 := ⟨rfl, rfl⟩
  ⟨Or.inr hh,
   (c1_sign_preserving_subtraction.1 _ (Or.inr hh)).2.1,
   (c1_sign_preserving_subtraction.1 _ (Or.inr hh)).2.2 5⟩

/-- **C2.** With more fractional digits than the target scale, the result is
the combined value divided by `10` once per excess digit with division that
truncates toward zero — `sign(n) * (|n| / 10^excess)` — and never rounds; in
particular `scale_decimal(b"10.000000", 5) = 1000000`, and for the negative
value `b"-0.19"` at scale 1 the result is `-1` (toward zero), not `-2`. -/
theorem c2_truncation_toward_zero :
    (∀ (text : List Nat) (scale : Nat) (n : Int),
      combinedValue text = some n → scale < fracDigits text →
      decimal_text_to_i128 text scale
        = some (n.sign *
            ((n.natAbs / 10 ^ (fracDigits text - scale) : Nat) : Int))) ∧
    decimal_text_to_i128 [49, 48, 46, 48, 48, 48, 48, 48, 48] 5
      = some 1000000 ∧
    decimal_text_to_i128 [45, 48, 46, 49, 57] 1 = some (-1) := by
  refine ⟨fun text scale n hc hlt => ?_, rfl, rfl⟩
  rw [decimal_text_to_i128_eq text scale n hc, if_neg (by omega),
    divPow10_trunc]

/-- Witness for C2 at `b"-0.19"` with scale 1. -/
theorem c2_truncation_toward_zero_witness :
    combinedValue [45, 48, 46, 49, 57] = some (-19) ∧
    1 < fracDigits [45, 48, 46, 49, 57] ∧
    decimal_text_to_i128 [45, 48, 46, 49, 57] 1
      = some ((-19 : Int).sign *
          (((-19 : Int).natAbs / 10 ^ (fracDigits [45, 48, 46, 49, 57] - 1)
            : Nat) : Int)) :=
  ⟨rfl, by decide,
   c2_truncation_toward_zero.1 [45, 48, 46, 49, 57] 1 (-19) rfl (by decide)⟩

/-- **C4.** With fewer fractional digits than the target scale the combined
value is multiplied by `10` once per missing digit, as if the text were
zero-padded on the right; a text with no radix separator counts as zero
fractional digits; in particular `scale_decimal(b"10.0", 5) = 1000000` and
`scale_decimal(b"10", 5) = 1000000`. -/
theorem c4_short_fraction_zero_padded :
    (∀ (text : List Nat) (scale : Nat) (n : Int),
      combinedValue text = some n → fracDigits text < scale →
      decimal_text_to_i128 text scale
        = some (n * 10 ^ (scale - fracDigits text))) ∧
    decimal_text_to_i128 [49, 48, 46, 48] 5 = some 1000000 ∧
    (intPartLen [49, 48] = ([49, 48] : List Nat).length ∧
      fracDigits [49, 48] = 0 ∧
      decimal_text_to_i128 [49, 48] 5 = some 1000000) := by
  refine ⟨fun text scale n hc hlt => ?_, rfl, rfl, rfl, rfl⟩
  rw [decimal_text_to_i128_eq text scale n hc, if_pos hlt, mulPow10_eq]

/-- Witness for C4 at `b"10.0"` with scale 5. -/
theorem c4_short_fraction_zero_padded_witness :
    combinedValue [49, 48, 46, 48] = some 100 ∧
    fracDigits [49, 48, 46, 48] < 5 ∧
    decimal_text_to_i128 [49, 48, 46, 48] 5
      = some (100 * 10 ^ (5 - fracDigits [49, 48, 46, 48])) :=
  ⟨rfl, by decide,
   c4_short_fraction_zero_padded.1 [49, 48, 46, 48] 5 100 rfl (by decide)⟩

theorem drop_append_of_le (n : Nat) (l s : List Nat) (h : n ≤ l.length) :
    (l ++ s).drop n = l.drop n ++ s := by
  induction l generalizing n with
  | nil =>
    have hn : n = 0 := Nat.le_zero.mp (by simpa using h)
    subst hn
    simp
  | cons c t ih =>
    cases n with
    | zero => simp
    | succ m =>
      simpa using ih m (by simpa using h)

theorem parse_append_radix (a : List Nat) (v : Int) (r : Nat) (b : List Nat)
    (hav : from_radix_10_signed a = (v, a.length))
    (hr : isDigitByte r = false) (ha : a = [] → r ≠ 43 ∧ r ≠ 45) :
    from_radix_10_signed (a ++ r :: b) = (v, a.length) ∧
    fracPart (a ++ r :: b) = from_radix_10 b := by
  have hs := from_radix_10_signed_append_nondigit a v r b hav hr ha
  have h1 : intPartLen (a ++ r :: b) = a.length := by
    rw [intPartLen, hs]
  refine ⟨hs, ?_⟩
  rw [fracPart, h1,
    if_neg (by simp only [List.length_append, List.length_cons]; omega)]
  congr 1
  rw [show a ++ r :: b = (a ++ [r]) ++ b by simp,
    show a.length + 1 = (a ++ [r]).length by simp]
  exact List.drop_left _ _

/-- **C5.** Any single non-digit byte (other than a leading `'+'`/`'-'`,
which would be taken as a sign) serves as the radix separator: exactly one
byte after the maximal signed integer prefix is skipped, and the result does
not depend on which non-digit byte stands there; in particular
`scale_decimal(b"10,00000", 5) = 1000000`. -/
theorem c5_arbitrary_radix_byte :
    (∀ (a : List Nat) (v : Int) (r r' : Nat) (b : List Nat) (scale : Nat),
      from_radix_10_signed a = (v, a.length) →
      isDigitByte r = false → isDigitByte r' = false →
      (a = [] → r ≠ 43 ∧ r ≠ 45) → (a = [] → r' ≠ 43 ∧ r' ≠ 45) →
      decimal_text_to_i128 (a ++ r :: b) scale
        = decimal_text_to_i128 (a ++ r' :: b) scale) ∧
    decimal_text_to_i128 [49, 48, 44, 48, 48, 48, 48, 48] 5 = some 1000000 := by
  refine ⟨fun a v r r' b scale hav hr hr' har har' => ?_, rfl⟩
  obtain ⟨hs, h2⟩ := parse_append_radix a v r b hav hr har
  obtain ⟨hs', h2'⟩ := parse_append_radix a v r' b hav hr' har'
  have hcv : combinedValue (a ++ r :: b) = combinedValue (a ++ r' :: b) := by
    simp only [combinedValue, hs, hs', h2, h2']
    cases a with
    | nil =>
      obtain ⟨-, h45⟩ := har rfl
      obtain ⟨-, h45'⟩ := har' rfl
      simp only [List.nil_append]
      rw [if_neg h45, if_neg h45']
    | cons c a' =>
      simp only [List.cons_append]
  have hfd : fracDigits (a ++ r :: b) = fracDigits (a ++ r' :: b) := by
    rw [fracDigits, fracDigits, h2, h2']
  rw [decimal_text_to_i128, decimal_text_to_i128, hcv, hfd]

/-- Witness for C5: `b"10,00000"` and `b"10.00000"` scale identically. -/
theorem c5_arbitrary_radix_byte_witness :
    from_radix_10_signed [49, 48] = (10, ([49, 48] : List Nat).length) ∧
    isDigitByte 44 = false ∧ isDigitByte 46 = false ∧
    decimal_text_to_i128 ([49, 48] ++ 44 :: [48, 48, 48, 48, 48]) 5
      = decimal_text_to_i128 ([49, 48] ++ 46 :: [48, 48, 48, 48, 48]) 5 :=
  ⟨rfl, rfl, rfl,
   c5_arbitrary_radix_byte.1 [49, 48] 10 44 46 [48, 48, 48, 48, 48] 5 rfl rfl rfl
     (fun h => absurd h (by decide)) (fun h => absurd h (by decide))⟩


/-- **C3.** For a decimal text whose radix separator is present and whose
fractional digits run to the end of the text, with at least `scale`
fractional digits already present, appending a trailing `'0'`(48) beyond the
`scale`-th fractional position (equivalently, removing such a trailing zero)
does not change the result of `decimal_text_to_i128`. -/
theorem c3_trailing_zero_invariant :
    ∀ (text : List Nat) (scale : Nat),
      intPartLen text < text.length →
      intPartLen text + 1 + fracDigits text = text.length →
      scale ≤ fracDigits text →
      decimal_text_to_i128 (text ++ [48]) scale
        = decimal_text_to_i128 text scale := by
  intro text scale h1 h2 h3
  obtain ⟨c, t', rfl⟩ : ∃ c t', text = c :: t' := by
    cases text with
    | nil => exact absurd h1 (by decide)
    | cons c t' => exact ⟨c, t', rfl⟩
  have hlen1 : (c :: t').length = t'.length + 1 := by simp
  have hlen2 : ((c :: t') ++ [48]).length = t'.length + 2 := by simp
  rw [hlen1] at h1 h2
  have hs : from_radix_10_signed ((c :: t') ++ [48])
      = from_radix_10_signed (c :: t') :=
    from_radix_10_signed_append_of_lt (c :: t') [48]
      (by rw [hlen1]; rw [intPartLen] at h1; omega)
  have hA : intPartLen ((c :: t') ++ [48]) = intPartLen (c :: t') := by
    rw [intPartLen, intPartLen, hs]
  have hfp : fracPart (c :: t')
      = from_radix_10 ((c :: t').drop (intPartLen (c :: t') + 1)) := by
    rw [fracPart, if_neg (by rw [hlen1]; omega)]
  have hlenfrac : ((c :: t').drop (intPartLen (c :: t') + 1)).length
      = fracDigits (c :: t') := by
    rw [List.length_drop, hlen1]
    omega
  have hfull : (fromRadix10Aux ((c :: t').drop (intPartLen (c :: t') + 1)) 0 0).2
      = 0 + ((c :: t').drop (intPartLen (c :: t') + 1)).length := by
    have hthis : (from_radix_10 ((c :: t').drop (intPartLen (c :: t') + 1))).2
        = fracDigits (c :: t') := by
      rw [← hfp, fracDigits]
    rw [from_radix_10] at hthis
    omega
  have hfr48 := fromRadix10Aux_append_digit
    ((c :: t').drop (intPartLen (c :: t') + 1)) 48 0 0 hfull rfl
  have hdrop : ((c :: t') ++ [48]).drop (intPartLen (c :: t') + 1)
      = (c :: t').drop (intPartLen (c :: t') + 1) ++ [48] :=
    drop_append_of_le _ _ _ (by rw [hlen1]; omega)
  have hfp48 : fracPart ((c :: t') ++ [48])
      = ((from_radix_10 ((c :: t').drop (intPartLen (c :: t') + 1))).1 * 10,
        fracDigits (c :: t') + 1) := by
    rw [fracPart, hA, if_neg (by rw [hlen2]; omega), hdrop, from_radix_10, hfr48]
    rw [Prod.mk.injEq]
    refine ⟨?_, by omega⟩
    rw [show digitVal 48 = 0 from rfl, add_zero]
    rfl
  obtain ⟨n, hn⟩ := combinedValue_cons c t'
  have hrhs : (fracPart (c :: t')).1
      = (from_radix_10 ((c :: t').drop (intPartLen (c :: t') + 1))).1 := by
    rw [hfp]
  have hcv48 : combinedValue ((c :: t') ++ [48]) = some (n * 10) := by
    have hm : mulPow10 (from_radix_10_signed (c :: t')).1
          (fracDigits (c :: t') + 1)
        = mulPow10 (from_radix_10_signed (c :: t')).1 (fracPart (c :: t')).2
            * 10 := by
      rw [mulPow10_eq, mulPow10_eq, fracDigits, pow_succ]
      ring
    simp only [combinedValue, hs, hfp48]
    rw [hm]
    simp only [combinedValue] at hn
    by_cases hlt : mulPow10 (from_radix_10_signed (c :: t')).1
        (fracPart (c :: t')).2 < 0
    · rw [if_pos hlt] at hn
      rw [if_pos (mul_neg_of_neg_of_pos hlt (by norm_num))]
      have hne := Option.some.inj hn
      subst hne
      rw [Option.some.injEq, hrhs]
      ring
    · by_cases hz : mulPow10 (from_radix_10_signed (c :: t')).1
          (fracPart (c :: t')).2 = 0
      · rw [if_neg hlt, if_pos hz] at hn
        rw [if_neg (by rw [hz, zero_mul]; exact lt_irrefl 0),
          if_pos (by rw [hz, zero_mul])]
        simp only [List.cons_append]
        by_cases hc : c = 45
        · rw [if_pos hc] at hn ⊢
          have hne := Option.some.inj hn
          subst hne
          rw [Option.some.injEq, hrhs]
          ring
        · rw [if_neg hc] at hn ⊢
          have hne := Option.some.inj hn
          subst hne
          rw [Option.some.injEq, hrhs]
          ring
      · rw [if_neg hlt, if_neg hz] at hn
        have hpos : (0 : Int) < mulPow10 (from_radix_10_signed (c :: t')).1
            (fracPart (c :: t')).2 := by
          rcases lt_trichotomy (mulPow10 (from_radix_10_signed (c :: t')).1
            (fracPart (c :: t')).2) (0 : Int) with hx | hx | hx
          · exact absurd hx hlt
          · exact absurd hx hz
          · exact hx
        rw [if_neg (by omega), if_neg (by omega)]
        have hne := Option.some.inj hn
        subst hne
        rw [Option.some.injEq, hrhs]
        ring
  have hfd48 : fracDigits ((c :: t') ++ [48]) = fracDigits (c :: t') + 1 := by
    rw [fracDigits, hfp48]
  simp only [decimal_text_to_i128, hn, hcv48, hfd48]
  rw [if_neg (by omega), if_neg (by omega),
    show fracDigits (c :: t') + 1 - scale = (fracDigits (c :: t') - scale) + 1
      from by omega,
    divPow10, Int.mul_tdiv_cancel n (by norm_num)]

/-- Witness for C3 at `b"10.000000"` (6 fractional digits) with scale 5. -/
theorem c3_trailing_zero_invariant_witness :
    intPartLen [49, 48, 46, 48, 48, 48, 48, 48, 48]
      < ([49, 48, 46, 48, 48, 48, 48, 48, 48] : List Nat).length ∧
    intPartLen [49, 48, 46, 48, 48, 48, 48, 48, 48] + 1
      + fracDigits [49, 48, 46, 48, 48, 48, 48, 48, 48]
      = ([49, 48, 46, 48, 48, 48, 48, 48, 48] : List Nat).length ∧
    5 ≤ fracDigits [49, 48, 46, 48, 48, 48, 48, 48, 48] ∧
    decimal_text_to_i128 ([49, 48, 46, 48, 48, 48, 48, 48, 48] ++ [48]) 5
      = decimal_text_to_i128 [49, 48, 46, 48, 48, 48, 48, 48, 48] 5 :=
  ⟨by decide, by decide, by decide,
   c3_trailing_zero_invariant [49, 48, 46, 48, 48, 48, 48, 48, 48] 5
     (by decide) (by decide) (by decide)⟩
